import Mathlib

/-!
Shallow embedding of the retrieval components of the NLP_class_RAG
repository: the dense vector search engine (`rag_retrieve.py`, class
`VectorSearchEngine`) and the lexical noun-overlap search engine
(`noun_search.py`, class `NounSearchEngine`).

Modelling conventions:
* Embedding vectors are `List Int`; the embedding model is an opaque
  parameter `enc : String → Vec` (the SentenceTransformer is external).
* The FAISS `IndexFlatL2` is external library code; it is modelled by its
  documented contract: exact squared-Euclidean scan over the stored
  vectors, ascending distances, and when `k` exceeds `ntotal` the result
  is padded with label `-1` and a large sentinel distance.
* Python `list(set(xs))` iterates a hash set in an unspecified order; it is
  modelled by an oracle `σ : List String → List String` constrained by
  `SetEnum σ` (duplicate-free, same members).
* Python exceptions are modelled with `Except`; `insert` returns the
  engine state at the point an exception escapes in its error case.
* Python indexing `xs[i]` (negative indices wrap once from the end,
  out-of-range raises `IndexError`) is modelled by `pyGet`.
-/

/-- Embedding vectors, as produced by the (opaque) sentence-embedding model. -/
abbrev Vec : Type := List Int

/-- Squared Euclidean distance between two vectors, the metric of
`faiss.IndexFlatL2`. -/
def sqL2 (a b : Vec) : Int :=
  ((List.zipWith (fun x y => x - y) a b).map (fun d => d * d)).sum

/-- Python `xs[i]`: non-negative indices are used directly, negative indices
wrap once from the end, anything else raises `IndexError` (the `error` case). -/
def pyGet (xs : List α) (i : Int) : Except Unit α :=
  let j : Int := if i < 0 then (xs.length : Int) + i else i
  if h : 0 ≤ j ∧ j.toNat < xs.length then .ok (xs.get ⟨j.toNat, h.2⟩) else .error ()

/-- The characters Python `str.strip()` removes: the code points CPython's
`str.isspace()` accepts (ASCII control whitespace, space, NEL, NBSP, Ogham
space mark, the Unicode space block U+2000-U+200A, line and paragraph
separators, narrow no-break space, medium mathematical space, ideographic
space). -/
def pyIsSpace (c : Char) : Bool :=
  let n := c.toNat
  (0x09 ≤ n && n ≤ 0x0D) || (0x1C ≤ n && n ≤ 0x1F) || n == 0x20 ||
  n == 0x85 || n == 0xA0 || n == 0x1680 || (0x2000 ≤ n && n ≤ 0x200A) ||
  n == 0x2028 || n == 0x2029 || n == 0x202F || n == 0x205F || n == 0x3000

/-- Truthiness of Python `s.strip()`: true iff `s` has a non-whitespace char. -/
def pyStripTruthy (s : String) : Bool :=
  s.toList.any (fun c => !(pyIsSpace c))

/-- Insertion of one element into a list sorted by the boolean relation `le`
(helper of `insSort`). -/
def insertSorted (le : α → α → Bool) (a : α) : List α → List α
  | [] => [a]
  | b :: l => if le a b then a :: b :: l else b :: insertSorted le a l

/-- Insertion sort by a boolean relation; models both the ascending scan of
the FAISS index and Python `sorted(..., reverse=True)`. -/
def insSort (le : α → α → Bool) : List α → List α
  | [] => []
  | a :: l => insertSorted le a (insSort le l)

/-- Ascending lexicographic order on (distance, label) pairs: smaller
distance first, ties by smaller label. -/
def distPairLe (p q : Int × Int) : Bool :=
  decide (p.1 < q.1 ∨ (p.1 = q.1 ∧ p.2 ≤ q.2))

/-- The large sentinel distance FAISS reports for padded (label `-1`)
result slots (FLT_MAX). -/
def faissSentinel : Int := 340282346638528859811704183484516925440

/-- Model of `faiss.IndexFlatL2`: a flat store of vectors of a fixed
dimension. -/
structure FaissIndexFlatL2 where
  dimension : Nat
  vectors : List Vec
deriving DecidableEq

/-- Model of `index.ntotal`: the number of stored vectors. -/
def FaissIndexFlatL2.ntotal (idx : FaissIndexFlatL2) : Nat :=
  idx.vectors.length

/-- Model of `index.add(vs)`: append vectors to the store. -/
def FaissIndexFlatL2.add (idx : FaissIndexFlatL2) (vs : List Vec) : FaissIndexFlatL2 :=
  { idx with vectors := idx.vectors ++ vs }

/-- The exhaustive scan underlying `IndexFlatL2.search`: the squared
distance of the query to each stored vector, labelled by position. -/
def faissScored (idx : FaissIndexFlatL2) (q : Vec) : List (Int × Int) :=
  (List.range idx.vectors.length).map
    (fun i => (sqL2 q (idx.vectors.getD i []), (i : Int)))

/-- Model of `index.search(q, k)`: exact scan returning `(distance, label)` pairs for
the `k` nearest stored vectors in ascending distance order; when fewer than
`k` vectors are stored the result is padded with `(FLT_MAX, -1)`, per the
FAISS documented contract. -/
def FaissIndexFlatL2.search (idx : FaissIndexFlatL2) (q : Vec) (k : Nat) : List (Int × Int) :=
  let sorted := insSort distPairLe (faissScored idx q)
  let top := sorted.take k
  top ++ List.replicate (k - top.length) (faissSentinel, -1)

/-- One record of the corpus JSON array (`content` may be null/absent,
`doc_id` is a number per the data model, `url` may be absent). -/
structure CorpusRecord where
  content : Option String
  doc_id : Int
  url : Option String
deriving DecidableEq

/-- State of `VectorSearchEngine` (`rag_retrieve.py`): the optional FAISS
index and the parallel registry lists. -/
structure VectorSearchEngine where
  dimension : Nat
  index : Option FaissIndexFlatL2
  documents : List String
  urls : List String
  document_ids : List Int
deriving DecidableEq

/-- A freshly constructed engine: no index, empty registry. -/
def freshEngine (d : Nat) : VectorSearchEngine :=
  { dimension := d, index := none, documents := [], urls := [], document_ids := [] }

/-- Recursion of the loading loop of `_load_and_filter_documents`: `seen`
is the deduplication set accumulated so far; a record is retained when its
`content` is present, truthy and has a truthy `strip()`, and was not seen. -/
def loadFilterAux : List CorpusRecord → List String → List String × List Int × List String
  | [], _ => ([], [], [])
  | item :: rest, seen =>
    match item.content with
    | some c =>
      if !c.isEmpty && pyStripTruthy c then
        if c ∈ seen then loadFilterAux rest seen
        else
          let r := loadFilterAux rest (c :: seen)
          (c :: r.1, item.doc_id :: r.2.1, (item.url.getD "") :: r.2.2)
      else loadFilterAux rest seen
    | none => loadFilterAux rest seen

/-- Model of `VectorSearchEngine._load_and_filter_documents`: returns the three
parallel lists (documents, ids, urls) of retained records, in input order.
File reading is abstracted: the function receives the parsed JSON array. -/
def VectorSearchEngine.load_and_filter_documents (data : List CorpusRecord) :
    List String × List Int × List String :=
  loadFilterAux data []

/-- Model of `VectorSearchEngine.build_from_json`: overwrite the registry with the
filtered corpus; if it is empty, print and return (leaving `index` as it
was); otherwise encode all texts and build a fresh flat index. -/
def VectorSearchEngine.build_from_json (enc : String → Vec) (e : VectorSearchEngine)
    (data : List CorpusRecord) : VectorSearchEngine :=
  let r := VectorSearchEngine.load_and_filter_documents data
  let e1 := { e with documents := r.1, document_ids := r.2.1, urls := r.2.2 }
  if r.1.isEmpty then e1
  else
    let embeddings := r.1.map enc
    let idx := (FaissIndexFlatL2.mk e.dimension []).add embeddings
    { e1 with index := some idx }

/-- The oracle `σ` is a faithful model of Python `list(set(xs))` when its
output enumerates the members of `xs` without duplicates (the iteration
order of a Python hash set is unspecified). -/
def SetEnum (σ : List String → List String) : Prop :=
  ∀ xs, (σ xs).Nodup ∧ ∀ a, a ∈ σ xs ↔ a ∈ xs

/-- A batched encoder that never raises, from a per-string embedding. -/
def pureEnc (enc : String → Vec) : List String → Except Unit (List Vec) :=
  fun xs => .ok (xs.map enc)

/-- Model of `VectorSearchEngine.insert`: dedupe the batch (first insertion via a
hash set, modelled by `σ`; later insertions by a scan of `documents`),
encode, add to the index (creating it if unset), assign ids from
`max(document_ids)+1` (or 0), extend `documents` and `document_ids`.
The error case carries the engine state at the point the encoding
exception escapes (in the source, no mutation precedes `model.encode`). -/
def insertFilteredDocs (σ : List String → List String) (e : VectorSearchEngine)
    (new_documents : List String) : List String :=
  if e.documents.isEmpty then σ new_documents
  else new_documents.filter (fun d => !(e.documents.contains d))

/-- Model of `start_id = max(self.document_ids) + 1 if self.document_ids else 0`. -/
def startId (ids : List Int) : Int :=
  match ids.max? with
  | some m => m + 1
  | none => 0

def VectorSearchEngine.insert (σ : List String → List String)
    (encB : List String → Except Unit (List Vec)) (e : VectorSearchEngine)
    (new_documents : List String) : Except VectorSearchEngine VectorSearchEngine :=
  let filtered_docs := insertFilteredDocs σ e new_documents
  if filtered_docs.isEmpty then .ok e
  else
    match encB filtered_docs with
    | .error _ => .error e
    | .ok new_embeddings =>
      let idx0 := match e.index with
        | none => FaissIndexFlatL2.mk e.dimension []
        | some idx => idx
      let idx1 := idx0.add new_embeddings
      let new_ids := (List.range filtered_docs.length).map
        (fun (i : Nat) => startId e.document_ids + (i : Int))
      .ok { e with index := some idx1,
                   documents := e.documents ++ filtered_docs,
                   document_ids := e.document_ids ++ new_ids }

/-- One entry of the result list of `VectorSearchEngine.get`. -/
structure SearchResult where
  id : Int
  score : Int
  text : String
  url : String
deriving DecidableEq

/-- The result `get` builds for registry position `j` with distance `dist`. -/
def resultAt (e : VectorSearchEngine) (dist : Int) (j : Nat) : SearchResult :=
  { id := e.document_ids.getD j 0, score := dist,
    text := e.documents.getD j "", url := e.urls.getD j "" }

/-- The result-building loop of `get`: for each `(distance, doc_index)`
pair, if `doc_index < len(documents)` build the `{id, score, text, url}`
record via Python indexing (which can raise `IndexError`), else skip. -/
def getLoop (e : VectorSearchEngine) : List (Int × Int) → Except Unit (List SearchResult)
  | [] => .ok []
  | (dist, doc_index) :: rest =>
    if doc_index < (e.documents.length : Int) then do
      let i ← pyGet e.document_ids doc_index
      let t ← pyGet e.documents doc_index
      let u ← pyGet e.urls doc_index
      let results ← getLoop e rest
      .ok ({ id := i, score := dist, text := t, url := u } :: results)
    else getLoop e rest

/-- Model of `VectorSearchEngine.get`: return `.ok []` when the index is unset or
empty; otherwise encode the query, search the index for `k` neighbours and
build the result list. -/
def VectorSearchEngine.get (enc : String → Vec) (e : VectorSearchEngine)
    (query : String) (k : Nat) : Except Unit (List SearchResult) :=
  match e.index with
  | none => .ok []
  | some idx =>
    if idx.ntotal = 0 then .ok []
    else
      let qe := enc query
      getLoop e (idx.search qe k)

/-! ## Noun-overlap search engine (`noun_search.py`) -/

/-- The part-of-speech tags accepted as nouns by `_extract_nouns`. -/
def nounTags : List String := ["NN", "NNS", "NNP", "NNPS"]

/-- Model of `NounSearchEngine._extract_nouns` with the NLTK tokenizer/tagger as the
opaque parameter `tagger` (text to tagged `(word, tag)` pairs): keep words
tagged as nouns and longer than one character, lowercase them, and collect
them into a set (modelled as a duplicate-free list). -/
def extract_nouns (tagger : String → List (String × String)) (text : String) : List String :=
  (((tagger text).filter (fun wt => nounTags.contains wt.2 && decide (1 < wt.1.length))).map
    (fun wt => wt.1.toLower)).dedup

/-- The records `_build_index` processes: those that are dicts with
`doc_id` and `content` whose content is truthy with a truthy `strip()`,
as `(doc_id, content)` pairs in file order (duplicates of `doc_id` kept:
the `documents` dict overwrites, the inverted index accumulates). -/
def processedRecords (data : List CorpusRecord) : List (Int × String) :=
  data.filterMap (fun item =>
    match item.content with
    | some c => if !c.isEmpty && pyStripTruthy c then some (item.doc_id, c) else none
    | none => none)

/-- Model of `self.documents.get(doc_id, "內容遺失")`: the Python dict is written in
file order with overwriting, so the lookup returns the content of the last
processed record with this id, or the fallback string. -/
def dictGet (procs : List (Int × String)) (id : Int) : String :=
  match procs.reverse.find? (fun p => p.1 == id) with
  | some p => p.2
  | none => "內容遺失"

/-- Membership in the inverted index: `doc_id ∈ inverted_index[noun]` iff
some processed record with this id contains the noun. -/
def invertedIndexMem (tagger : String → List (String × String))
    (procs : List (Int × String)) (noun : String) (id : Int) : Bool :=
  procs.any (fun p => p.1 == id && (extract_nouns tagger p.2).contains noun)

/-- State of `NounSearchEngine`: the processed records, from which the
`documents` dict and the inverted index are both determined. -/
structure NounSearchEngine where
  procs : List (Int × String)
deriving DecidableEq

/-- One entry of the result list of `NounSearchEngine.search`. -/
structure NounResult where
  id : Int
  score : Nat
  content : String
deriving DecidableEq

/-- Descending order on `(doc_id, score)` pairs, as used by
`sorted(doc_scores.items(), key=score, reverse=True)`. -/
def scoreGe (p q : Int × Nat) : Bool :=
  decide (q.2 ≤ p.2)

/-- The `doc_scores` dict of `NounSearchEngine.search`: each document id with
its count of overlapping query nouns; an id is a key exactly when some query
noun's posting set contains it, i.e. when the count is positive. -/
def nounDocScores (tagger : String → List (String × String))
    (eng : NounSearchEngine) (query_nouns : List String) : List (Int × Nat) :=
  (((eng.procs.map Prod.fst).dedup).map
    (fun id => (id, (query_nouns.filter
      (fun n => invertedIndexMem tagger eng.procs n id)).length))).filter
    (fun p => decide (0 < p.2))

/-- Model of `NounSearchEngine.search`: extract the query's noun set; if empty return
`[]`; otherwise sort `doc_scores` by descending score, keep `top_k`, and
return `{id, score, content}` records. The iteration order of the Python
sets feeding `doc_scores` is unspecified, so the pre-sort order is an oracle
permutation `π`. -/
def NounSearchEngine.search (tagger : String → List (String × String))
    (π : List (Int × Nat) → List (Int × Nat)) (eng : NounSearchEngine)
    (query : String) (top_k : Nat) : List NounResult :=
  if (extract_nouns tagger query).isEmpty then []
  else
    ((insSort scoreGe (π (nounDocScores tagger eng
        (extract_nouns tagger query)))).take top_k).map
      (fun p => { id := p.1, score := p.2, content := dictGet eng.procs p.1 })

/-- The JSON value `json.load` produces on success: an array of corpus
records or some other JSON root. -/
inductive JsonRoot where
  | arr (items : List CorpusRecord)
  | nonList
deriving DecidableEq

/-- What an existing path holds: a file parsing to a JSON root, or a
malformed file on which `json.load` raises `JSONDecodeError`. -/
inductive JsonFile where
  | parsed (root : JsonRoot)
  | malformed
deriving DecidableEq

/-- The Python exceptions the noun-search constructor can raise. -/
inductive PyError where
  | fileNotFoundError
  | jsonDecodeError
  | typeError
deriving DecidableEq

/-- Model of `NounSearchEngine.__init__` together with `_build_index`: raise
`FileNotFoundError` when the path does not exist; run `json.load`, which
raises `JSONDecodeError` when the file is malformed (the constructor wraps
nothing in try/except, so it propagates); raise `TypeError` when the parsed
root is not a list; otherwise build the index. The filesystem is modelled as
a partial map from paths to file contents. -/
def NounSearchEngine.create (fs : String → Option JsonFile) (json_path : String) :
    Except PyError NounSearchEngine :=
  match fs json_path with
  | none => .error .fileNotFoundError
  | some .malformed => .error .jsonDecodeError
  | some (.parsed .nonList) => .error .typeError
  | some (.parsed (.arr data)) => .ok { procs := processedRecords data }

/-! ## Helper lemmas: sorting -/

/-- The sorted-ness predicate used throughout: consecutive-closure of the
boolean relation `le`. -/
def SortedBy (le : α → α → Bool) (l : List α) : Prop :=
  List.Pairwise (fun x y => le x y = true) l

theorem insertSorted_perm (le : α → α → Bool) (a : α) :
    ∀ l : List α, List.Perm (insertSorted le a l) (a :: l)
  | [] => by simp [insertSorted]
  | b :: l => by
    cases h : le a b with
    | true => simp [insertSorted, h]
    | false =>
      simp only [insertSorted, h, Bool.false_eq_true, if_false]
      exact List.Perm.trans (List.Perm.cons b (insertSorted_perm le a l))
        (List.Perm.swap a b l)

theorem insSort_perm (le : α → α → Bool) : ∀ l : List α, List.Perm (insSort le l) l
  | [] => by simp [insSort]
  | a :: l =>
    List.Perm.trans (insertSorted_perm le a (insSort le l))
      (List.Perm.cons a (insSort_perm le l))

theorem pairwise_insertSorted (le : α → α → Bool)
    (htot : ∀ a b, le a b = true ∨ le b a = true)
    (htrans : ∀ a b c, le a b = true → le b c = true → le a c = true) (a : α) :
    ∀ l : List α, SortedBy le l → SortedBy le (insertSorted le a l)
  | [], _ => by simp [insertSorted, SortedBy]
  | b :: l, hp => by
    rcases List.pairwise_cons.mp hp with ⟨hb, hl⟩
    cases h : le a b with
    | true =>
      simp only [insertSorted, h, if_true]
      refine List.pairwise_cons.mpr ⟨?_, hp⟩
      intro x hx
      rcases List.mem_cons.mp hx with rfl | hx
      · exact h
      · exact htrans a b x h (hb x hx)
    | false =>
      simp only [insertSorted, h, Bool.false_eq_true, if_false]
      refine List.pairwise_cons.mpr ⟨?_, pairwise_insertSorted le htot htrans a l hl⟩
      intro x hx
      have hx' : x = a ∨ x ∈ l := by
        have hm := (insertSorted_perm le a l).mem_iff.mp hx
        simpa using hm
      rcases hx' with rfl | hx'
      · rcases htot x b with h1 | h1
        · exact absurd h1 (by simp [h])
        · exact h1
      · exact hb x hx'

theorem pairwise_insSort (le : α → α → Bool)
    (htot : ∀ a b, le a b = true ∨ le b a = true)
    (htrans : ∀ a b c, le a b = true → le b c = true → le a c = true) :
    ∀ l : List α, SortedBy le (insSort le l)
  | [] => by simp [insSort, SortedBy]
  | a :: l =>
    pairwise_insertSorted le htot htrans a (insSort le l)
      (pairwise_insSort le htot htrans l)

theorem distPairLe_total : ∀ p q : Int × Int, distPairLe p q = true ∨ distPairLe q p = true := by
  intro p q
  simp only [distPairLe, decide_eq_true_eq]
  omega

theorem distPairLe_trans : ∀ p q r : Int × Int,
    distPairLe p q = true → distPairLe q r = true → distPairLe p r = true := by
  intro p q r
  simp only [distPairLe, decide_eq_true_eq]
  omega

theorem scoreGe_total : ∀ p q : Int × Nat, scoreGe p q = true ∨ scoreGe q p = true := by
  intro p q
  simp only [scoreGe, decide_eq_true_eq]
  omega

theorem scoreGe_trans : ∀ p q r : Int × Nat,
    scoreGe p q = true → scoreGe q r = true → scoreGe p r = true := by
  intro p q r
  simp only [scoreGe, decide_eq_true_eq]
  omega

/-! ## Helper lemmas: Python indexing -/

theorem listGet_idx_congr (xs : List α) (a b : Nat) (ha : a < xs.length)
    (hb : b < xs.length) (h : a = b) : xs.get ⟨a, ha⟩ = xs.get ⟨b, hb⟩ := by
  subst h
  rfl

theorem pyGet_ofNat (xs : List α) (dflt : α) (j : Nat) (h : j < xs.length) :
    pyGet xs (j : Int) = .ok (xs.getD j dflt) := by
  unfold pyGet
  have h0 : ¬ ((j : Int) < 0) := by omega
  simp only [h0, if_false]
  have h1 : (0 : Int) ≤ (j : Int) ∧ ((j : Int)).toNat < xs.length := by
    constructor
    · omega
    · simpa using h
  rw [dif_pos h1]
  congr 1
  rw [List.getD_eq_getElem xs dflt h]
  simp only [List.get_eq_getElem]
  exact listGet_idx_congr xs _ _ (by omega) (by omega) (by omega)

theorem pyGet_neg_one (xs : List α) (dflt : α) (h : 0 < xs.length) :
    pyGet xs (-1) = .ok (xs.getD (xs.length - 1) dflt) := by
  unfold pyGet
  have h0 : ((-1 : Int) < 0) := by omega
  simp only [h0, if_true]
  have h1 : (0 : Int) ≤ (xs.length : Int) + (-1) ∧
      ((xs.length : Int) + (-1)).toNat < xs.length := by omega
  rw [dif_pos h1]
  congr 1
  rw [List.getD_eq_getElem xs dflt (show xs.length - 1 < xs.length by omega)]
  simp only [List.get_eq_getElem]
  exact listGet_idx_congr xs _ _ (by omega) (by omega) (by omega)

/-! ## Helper lemmas: squared Euclidean distance -/

theorem sqL2_nonneg (a b : Vec) : 0 ≤ sqL2 a b := by
  unfold sqL2
  apply List.sum_nonneg
  intro x hx
  rcases List.mem_map.mp hx with ⟨d, _, rfl⟩
  exact mul_self_nonneg d

theorem sqL2_self (a : Vec) : sqL2 a a = 0 := by
  unfold sqL2
  induction a with
  | nil => simp
  | cons x xs _ => simp

theorem sqL2_eq_zero (a b : Vec) (hlen : a.length = b.length) (h : sqL2 a b = 0) : a = b := by
  induction a generalizing b with
  | nil => cases b with
    | nil => rfl
    | cons y ys => simp at hlen
  | cons x xs ih =>
    cases b with
    | nil => simp at hlen
    | cons y ys =>
      unfold sqL2 at h
      simp only [List.zipWith_cons_cons, List.map_cons, List.sum_cons] at h
      have h1 : 0 ≤ (x - y) * (x - y) := mul_self_nonneg _
      have h2 : 0 ≤ sqL2 xs ys := sqL2_nonneg xs ys
      have h3 : sqL2 xs ys = ((List.zipWith (fun x y => x - y) xs ys).map (fun d => d * d)).sum := rfl
      have hx : (x - y) * (x - y) = 0 ∧ sqL2 xs ys = 0 := by
        rw [h3]
        constructor <;> omega
      have hxy : x = y := by
        have := mul_self_eq_zero.mp hx.1
        omega
      have hrest : xs = ys := ih ys (by simp at hlen; exact hlen) hx.2
      rw [hxy, hrest]

/-! ## Helper lemmas: the result loop of `get` -/

/-- A `(distance, label)` pair `get`'s loop handles without raising: either a
genuine in-range label, or the padding label `-1` on a nonempty parallel
registry. -/
def GoodPair (e : VectorSearchEngine) (p : Int × Int) : Prop :=
  (0 ≤ p.2 ∧ p.2.toNat < e.documents.length ∧ p.2.toNat < e.document_ids.length ∧
    p.2.toNat < e.urls.length) ∨
  (p.2 = -1 ∧ e.documents ≠ [] ∧ e.document_ids.length = e.documents.length ∧
    e.urls.length = e.documents.length)

/-- The registry position a pair's label resolves to under Python indexing. -/
def pairPos (e : VectorSearchEngine) (p : Int × Int) : Nat :=
  if p.2 = -1 then e.documents.length - 1 else p.2.toNat

theorem getLoop_cons_inbounds (e : VectorSearchEngine) (d : Int) (j : Nat)
    (rest : List (Int × Int)) (hd : j < e.documents.length)
    (hi : j < e.document_ids.length) (hu : j < e.urls.length) :
    getLoop e ((d, (j : Int)) :: rest) =
      (getLoop e rest).map (fun rs => resultAt e d j :: rs) := by
  have hstep : getLoop e ((d, (j : Int)) :: rest) =
      (if (j : Int) < (e.documents.length : Int) then do
        let a ← pyGet e.document_ids (j : Int)
        let t ← pyGet e.documents (j : Int)
        let u ← pyGet e.urls (j : Int)
        let results ← getLoop e rest
        Except.ok ({ id := a, score := d, text := t, url := u } :: results)
      else getLoop e rest) := rfl
  rw [hstep, if_pos (show (j : Int) < (e.documents.length : Int) by omega)]
  rw [pyGet_ofNat e.document_ids 0 j hi, pyGet_ofNat e.documents "" j hd,
    pyGet_ofNat e.urls "" j hu]
  cases hrest : getLoop e rest with
  | error er => simp [Except.map, bind, Except.bind]
  | ok rs =>
    simp only [Except.map, bind, Except.bind]
    congr 2

theorem getLoop_cons_neg_one (e : VectorSearchEngine) (d : Int) (rest : List (Int × Int))
    (hne : e.documents ≠ []) (hi : e.document_ids.length = e.documents.length)
    (hu : e.urls.length = e.documents.length) :
    getLoop e ((d, -1) :: rest) =
      (getLoop e rest).map (fun rs => resultAt e d (e.documents.length - 1) :: rs) := by
  have hlen : 0 < e.documents.length := List.length_pos.mpr hne
  have hstep : getLoop e ((d, -1) :: rest) =
      (if (-1 : Int) < (e.documents.length : Int) then do
        let a ← pyGet e.document_ids (-1)
        let t ← pyGet e.documents (-1)
        let u ← pyGet e.urls (-1)
        let results ← getLoop e rest
        Except.ok ({ id := a, score := d, text := t, url := u } :: results)
      else getLoop e rest) := rfl
  rw [hstep, if_pos (show (-1 : Int) < (e.documents.length : Int) by omega)]
  rw [pyGet_neg_one e.document_ids 0 (by omega), pyGet_neg_one e.documents "" (by omega),
    pyGet_neg_one e.urls "" (by omega)]
  cases hrest : getLoop e rest with
  | error er => simp [Except.map, bind, Except.bind]
  | ok rs =>
    simp only [Except.map, bind, Except.bind]
    congr 2
    simp only [resultAt]
    rw [hi, hu]

theorem getLoop_ok_of_good (e : VectorSearchEngine) :
    ∀ pairs : List (Int × Int), (∀ p ∈ pairs, GoodPair e p) →
      getLoop e pairs = .ok (pairs.map (fun p => resultAt e p.1 (pairPos e p)))
  | [], _ => by simp [getLoop]
  | (d, i) :: rest, h => by
    have hrest := getLoop_ok_of_good e rest (fun p hp => h p (List.mem_cons_of_mem _ hp))
    rcases h (d, i) (List.mem_cons_self _ _) with hin | hpad
    · obtain ⟨h0, htoD, htoI, htoU⟩ := hin
      obtain ⟨j, rfl⟩ := Int.eq_ofNat_of_zero_le h0
      rw [Int.toNat_ofNat] at htoD htoI htoU
      rw [getLoop_cons_inbounds e d j rest htoD htoI htoU, hrest]
      have hne : ¬ ((j : Int) = -1) := by omega
      simp [Except.map, pairPos, hne]
    · have hi1 : i = -1 := hpad.1
      subst hi1
      rw [getLoop_cons_neg_one e d rest hpad.2.1 hpad.2.2.1 hpad.2.2.2, hrest]
      simp [Except.map, pairPos]

/-! ## Helper lemmas: `insert` and `build_from_json` characterization -/

theorem insert_pureEnc_empty (σ : List String → List String) (enc : String → Vec)
    (e : VectorSearchEngine) (nd : List String)
    (h : (insertFilteredDocs σ e nd).isEmpty = true) :
    VectorSearchEngine.insert σ (pureEnc enc) e nd = .ok e := by
  unfold VectorSearchEngine.insert
  rw [if_pos h]

theorem insert_pureEnc_push (σ : List String → List String) (enc : String → Vec)
    (e : VectorSearchEngine) (nd : List String)
    (h : (insertFilteredDocs σ e nd).isEmpty = false) :
    VectorSearchEngine.insert σ (pureEnc enc) e nd =
      .ok { e with
        index := some ((match e.index with
          | none => FaissIndexFlatL2.mk e.dimension []
          | some idx => idx).add ((insertFilteredDocs σ e nd).map enc)),
        documents := e.documents ++ insertFilteredDocs σ e nd,
        document_ids := e.document_ids ++
          (List.range (insertFilteredDocs σ e nd).length).map
            (fun (i : Nat) => startId e.document_ids + (i : Int)) } := by
  unfold VectorSearchEngine.insert
  rw [if_neg (by simp [h])]
  simp [pureEnc]

theorem insert_error_state (σ : List String → List String)
    (encB : List String → Except Unit (List Vec)) (e : VectorSearchEngine)
    (nd : List String) (s : VectorSearchEngine)
    (h : VectorSearchEngine.insert σ encB e nd = .error s) : s = e := by
  unfold VectorSearchEngine.insert at h
  by_cases hf : (insertFilteredDocs σ e nd).isEmpty = true
  · rw [if_pos hf] at h
    cases h
  · rw [if_neg hf] at h
    cases henc : encB (insertFilteredDocs σ e nd) with
    | error u =>
      rw [henc] at h
      injection h with h1
      exact h1.symm
    | ok vs =>
      rw [henc] at h
      cases h

theorem build_from_json_eq (enc : String → Vec) (e : VectorSearchEngine)
    (data : List CorpusRecord)
    (h : (VectorSearchEngine.load_and_filter_documents data).1 ≠ []) :
    VectorSearchEngine.build_from_json enc e data =
      { dimension := e.dimension,
        index := some (FaissIndexFlatL2.mk e.dimension
          ((VectorSearchEngine.load_and_filter_documents data).1.map enc)),
        documents := (VectorSearchEngine.load_and_filter_documents data).1,
        urls := (VectorSearchEngine.load_and_filter_documents data).2.2,
        document_ids := (VectorSearchEngine.load_and_filter_documents data).2.1 } := by
  unfold VectorSearchEngine.build_from_json
  rw [if_neg (by simp [h])]
  simp [FaissIndexFlatL2.add]

/-! ## Helper lemmas: the corpus loader -/

theorem loadFilterAux_lengths : ∀ (data : List CorpusRecord) (seen : List String),
    (loadFilterAux data seen).2.1.length = (loadFilterAux data seen).1.length ∧
    (loadFilterAux data seen).2.2.length = (loadFilterAux data seen).1.length
  | [], _ => by simp [loadFilterAux]
  | item :: rest, seen => by
    cases hc : item.content with
    | none =>
      simp only [loadFilterAux, hc]
      exact loadFilterAux_lengths rest seen
    | some c =>
      simp only [loadFilterAux, hc]
      cases hcond : (!c.isEmpty && pyStripTruthy c) with
      | false =>
        simp only [Bool.false_eq_true, if_false]
        exact loadFilterAux_lengths rest seen
      | true =>
        simp only [if_true]
        by_cases hseen : c ∈ seen
        · simp only [if_pos hseen]
          exact loadFilterAux_lengths rest seen
        · simp only [if_neg hseen]
          have ih := loadFilterAux_lengths rest (c :: seen)
          simp only [List.length_cons]
          exact ⟨by rw [ih.1], by rw [ih.2]⟩

theorem loadFilterAux_nodup : ∀ (data : List CorpusRecord) (seen : List String),
    (loadFilterAux data seen).1.Nodup ∧ ∀ c ∈ (loadFilterAux data seen).1, c ∉ seen
  | [], _ => by simp [loadFilterAux]
  | item :: rest, seen => by
    cases hc : item.content with
    | none =>
      simp only [loadFilterAux, hc]
      exact loadFilterAux_nodup rest seen
    | some c =>
      simp only [loadFilterAux, hc]
      cases hcond : (!c.isEmpty && pyStripTruthy c) with
      | false =>
        simp only [Bool.false_eq_true, if_false]
        exact loadFilterAux_nodup rest seen
      | true =>
        simp only [if_true]
        by_cases hseen : c ∈ seen
        · simp only [if_pos hseen]
          exact loadFilterAux_nodup rest seen
        · simp only [if_neg hseen]
          have ih := loadFilterAux_nodup rest (c :: seen)
          constructor
          · refine List.nodup_cons.mpr ⟨?_, ih.1⟩
            intro hmem
            exact (ih.2 c hmem) (List.mem_cons_self c seen)
          · intro x hx
            rcases List.mem_cons.mp hx with rfl | hx
            · exact hseen
            · intro hxs
              exact (ih.2 x hx) (List.mem_cons_of_mem c hxs)

theorem loadFilterAux_sublist : ∀ (data : List CorpusRecord) (seen : List String),
    (loadFilterAux data seen).1.Sublist (data.filterMap (fun it => it.content))
  | [], _ => by simp [loadFilterAux]
  | item :: rest, seen => by
    cases hc : item.content with
    | none =>
      simp only [loadFilterAux, hc, List.filterMap_cons]
      exact loadFilterAux_sublist rest seen
    | some c =>
      simp only [loadFilterAux, hc, List.filterMap_cons]
      cases hcond : (!c.isEmpty && pyStripTruthy c) with
      | false =>
        simp only [Bool.false_eq_true, if_false]
        exact List.Sublist.cons c (loadFilterAux_sublist rest seen)
      | true =>
        simp only [if_true]
        by_cases hseen : c ∈ seen
        · simp only [if_pos hseen]
          exact List.Sublist.cons c (loadFilterAux_sublist rest seen)
        · simp only [if_neg hseen]
          exact List.Sublist.cons₂ c (loadFilterAux_sublist rest (c :: seen))

theorem loadFilterAux_mem : ∀ (data : List CorpusRecord) (seen : List String) (c : String),
    c ∈ (loadFilterAux data seen).1 ↔
      (c ∉ seen ∧ ∃ it ∈ data, it.content = some c ∧ (!c.isEmpty && pyStripTruthy c) = true)
  | [], seen, c => by simp [loadFilterAux]
  | item :: rest, seen, c => by
    cases hc : item.content with
    | none =>
      simp only [loadFilterAux, hc]
      rw [loadFilterAux_mem rest seen c]
      constructor
      · rintro ⟨h1, it, hit, h2, h3⟩
        exact ⟨h1, it, List.mem_cons_of_mem _ hit, h2, h3⟩
      · rintro ⟨h1, it, hit, h2, h3⟩
        rcases List.mem_cons.mp hit with rfl | hit
        · rw [hc] at h2
          cases h2
        · exact ⟨h1, it, hit, h2, h3⟩
    | some c0 =>
      simp only [loadFilterAux, hc]
      cases hcond : (!c0.isEmpty && pyStripTruthy c0) with
      | false =>
        simp only [Bool.false_eq_true, if_false]
        rw [loadFilterAux_mem rest seen c]
        constructor
        · rintro ⟨h1, it, hit, h2, h3⟩
          exact ⟨h1, it, List.mem_cons_of_mem _ hit, h2, h3⟩
        · rintro ⟨h1, it, hit, h2, h3⟩
          rcases List.mem_cons.mp hit with rfl | hit
          · rw [hc] at h2
            injection h2 with h2
            subst h2
            rw [hcond] at h3
            cases h3
          · exact ⟨h1, it, hit, h2, h3⟩
      | true =>
        simp only [if_true]
        by_cases hseen : c0 ∈ seen
        · simp only [if_pos hseen]
          rw [loadFilterAux_mem rest seen c]
          constructor
          · rintro ⟨h1, it, hit, h2, h3⟩
            exact ⟨h1, it, List.mem_cons_of_mem _ hit, h2, h3⟩
          · rintro ⟨h1, it, hit, h2, h3⟩
            rcases List.mem_cons.mp hit with rfl | hit
            · rw [hc] at h2
              injection h2 with h2
              subst h2
              exact absurd hseen h1
            · exact ⟨h1, it, hit, h2, h3⟩
        · simp only [if_neg hseen]
          constructor
          · intro hx
            rcases List.mem_cons.mp hx with rfl | hx
            · exact ⟨hseen, item, List.mem_cons_self _ _, hc, hcond⟩
            · rcases (loadFilterAux_mem rest (c0 :: seen) c).mp hx with ⟨h1, it, hit, h2, h3⟩
              refine ⟨fun hs => h1 (List.mem_cons_of_mem _ hs), it, List.mem_cons_of_mem _ hit, h2, h3⟩
          · rintro ⟨h1, it, hit, h2, h3⟩
            rcases List.mem_cons.mp hit with rfl | hit
            · rw [hc] at h2
              injection h2 with h2
              subst h2
              exact List.mem_cons_self _ _
            · by_cases hcc : c = c0
              · subst hcc
                exact List.mem_cons_self _ _
              · refine List.mem_cons_of_mem _ ?_
                rw [loadFilterAux_mem rest (c0 :: seen) c]
                refine ⟨?_, it, hit, h2, h3⟩
                intro hs
                rcases List.mem_cons.mp hs with rfl | hs
                · exact hcc rfl
                · exact h1 hs

theorem loadFilterAux_zip : ∀ (data : List CorpusRecord) (seen : List String),
    ∀ x ∈ (loadFilterAux data seen).1.zip
      ((loadFilterAux data seen).2.1.zip (loadFilterAux data seen).2.2),
      ∃ it ∈ data, it.content = some x.1 ∧ it.doc_id = x.2.1 ∧ x.2.2 = it.url.getD ""
  | [], seen => by simp [loadFilterAux]
  | item :: rest, seen => by
    cases hc : item.content with
    | none =>
      simp only [loadFilterAux, hc]
      intro x hx
      rcases loadFilterAux_zip rest seen x hx with ⟨it, hit, h2⟩
      exact ⟨it, List.mem_cons_of_mem _ hit, h2⟩
    | some c0 =>
      simp only [loadFilterAux, hc]
      cases hcond : (!c0.isEmpty && pyStripTruthy c0) with
      | false =>
        simp only [Bool.false_eq_true, if_false]
        intro x hx
        rcases loadFilterAux_zip rest seen x hx with ⟨it, hit, h2⟩
        exact ⟨it, List.mem_cons_of_mem _ hit, h2⟩
      | true =>
        simp only [if_true]
        by_cases hseen : c0 ∈ seen
        · simp only [if_pos hseen]
          intro x hx
          rcases loadFilterAux_zip rest seen x hx with ⟨it, hit, h2⟩
          exact ⟨it, List.mem_cons_of_mem _ hit, h2⟩
        · simp only [if_neg hseen]
          intro x hx
          simp only [List.zip_cons_cons, List.mem_cons] at hx
          rcases hx with rfl | hx
          · exact ⟨item, List.mem_cons_self _ _, hc, rfl, rfl⟩
          · rcases loadFilterAux_zip rest (c0 :: seen) x hx with ⟨it, hit, h2⟩
            exact ⟨it, List.mem_cons_of_mem _ hit, h2⟩

theorem loadFilterAux_find? : ∀ (data : List CorpusRecord) (seen : List String),
    ∀ x ∈ (loadFilterAux data seen).1.zip
      ((loadFilterAux data seen).2.1.zip (loadFilterAux data seen).2.2),
      ∃ it, data.find? (fun r => r.content == some x.1) = some it ∧
        it.content = some x.1 ∧ it.doc_id = x.2.1 ∧ x.2.2 = it.url.getD ""
  | [], seen => by simp [loadFilterAux]
  | item :: rest, seen => by
    cases hc : item.content with
    | none =>
      simp only [loadFilterAux, hc]
      intro x hx
      rcases loadFilterAux_find? rest seen x hx with ⟨it, hfind, h2⟩
      refine ⟨it, ?_, h2⟩
      rw [List.find?_cons_of_neg _ (by simp [hc])]
      exact hfind
    | some c0 =>
      simp only [loadFilterAux, hc]
      cases hcond : (!c0.isEmpty && pyStripTruthy c0) with
      | false =>
        simp only [Bool.false_eq_true, if_false]
        intro x hx
        obtain ⟨c, id, u⟩ := x
        have hcmem : c ∈ (loadFilterAux rest seen).1 := (List.of_mem_zip hx).1
        rcases (loadFilterAux_mem rest seen c).mp hcmem with
          ⟨hcseen, it', hit', hcont', hcond'⟩
        have hne : ¬ (c0 = c) := by
          intro hcc
          rw [hcc, hcond'] at hcond
          cases hcond
        rcases loadFilterAux_find? rest seen (c, id, u) hx with ⟨it, hfind, h2⟩
        refine ⟨it, ?_, h2⟩
        rw [List.find?_cons_of_neg _ (by simp [hc]; exact hne)]
        exact hfind
      | true =>
        simp only [if_true]
        by_cases hseen : c0 ∈ seen
        · simp only [if_pos hseen]
          intro x hx
          obtain ⟨c, id, u⟩ := x
          have hcmem : c ∈ (loadFilterAux rest seen).1 := (List.of_mem_zip hx).1
          have hcseen : c ∉ seen := (loadFilterAux_nodup rest seen).2 c hcmem
          have hne : ¬ (c0 = c) := by
            intro hcc
            rw [hcc] at hseen
            exact hcseen hseen
          rcases loadFilterAux_find? rest seen (c, id, u) hx with ⟨it, hfind, h2⟩
          refine ⟨it, ?_, h2⟩
          rw [List.find?_cons_of_neg _ (by simp [hc]; exact hne)]
          exact hfind
        · simp only [if_neg hseen]
          intro x hx
          obtain ⟨c, id, u⟩ := x
          simp only [List.zip_cons_cons, List.mem_cons] at hx
          rcases hx with hhead | hx
          · obtain ⟨rfl, rfl, rfl⟩ : c = c0 ∧ id = item.doc_id ∧ u = item.url.getD "" := by
              have h1 := congrArg Prod.fst hhead
              have h2 := congrArg (fun p => p.2.1) hhead
              have h3 := congrArg (fun p => p.2.2) hhead
              exact ⟨h1, h2, h3⟩
            refine ⟨item, ?_, hc, rfl, rfl⟩
            exact List.find?_cons_of_pos _ (by simp [hc])
          · have hcmem : c ∈ (loadFilterAux rest (c0 :: seen)).1 := (List.of_mem_zip hx).1
            have hcseen : c ∉ c0 :: seen := (loadFilterAux_nodup rest (c0 :: seen)).2 c hcmem
            have hne : ¬ (c0 = c) := by
              intro hcc
              rw [← hcc] at hcseen
              exact hcseen (List.mem_cons_self _ _)
            rcases loadFilterAux_find? rest (c0 :: seen) (c, id, u) hx with ⟨it, hfind, h2⟩
            refine ⟨it, ?_, h2⟩
            rw [List.find?_cons_of_neg _ (by simp [hc]; exact hne)]
            exact hfind

/-! ## Helper lemmas: `max?` bounds for id assignment -/

theorem le_foldl_max : ∀ (l : List Int) (a : Int),
    a ≤ l.foldl max a ∧ ∀ x ∈ l, x ≤ l.foldl max a
  | [], a => ⟨le_refl a, by simp⟩
  | b :: l, a => by
    have ih := le_foldl_max l (max a b)
    refine ⟨le_trans (le_max_left a b) ih.1, ?_⟩
    intro x hx
    rcases List.mem_cons.mp hx with rfl | hx
    · exact le_trans (le_max_right a x) ih.1
    · exact ih.2 x hx

theorem le_of_mem_max? (l : List Int) (m : Int) (h : l.max? = some m) (a : Int)
    (ha : a ∈ l) : a ≤ m := by
  cases l with
  | nil => cases h
  | cons b l =>
    have hdef : (b :: l).max? = some (l.foldl max b) := rfl
    rw [hdef] at h
    injection h with hm
    rcases List.mem_cons.mp ha with rfl | ha
    · exact hm ▸ (le_foldl_max l a).1
    · exact hm ▸ (le_foldl_max l b).2 a ha

/-! ## Helper lemmas: the noun-search dictionary and inverted index -/

theorem find?_eq_of_nodup_fst : ∀ (l : List (Int × String)) (id : Int) (c : String),
    (id, c) ∈ l → (l.map Prod.fst).Nodup →
    l.find? (fun p => p.1 == id) = some (id, c)
  | [], id, c, hmem, _ => by cases hmem
  | q :: rest, id, c, hmem, hnd => by
    rw [List.map_cons, List.nodup_cons] at hnd
    cases hq : (q.1 == id) with
    | true =>
      have hq1 : q.1 = id := by simpa using hq
      rcases List.mem_cons.mp hmem with rfl | hmem2
      · exact List.find?_cons_of_pos rest hq
      · exfalso
        apply hnd.1
        rw [hq1]
        exact List.mem_map.mpr ⟨(id, c), hmem2, rfl⟩
    | false =>
      have hne : (id, c) ≠ q := by
        intro hcontra
        rw [← hcontra] at hq
        simp at hq
      have hmem2 : (id, c) ∈ rest := by
        rcases List.mem_cons.mp hmem with h1 | h2
        · exact absurd h1 hne
        · exact h2
      rw [List.find?_cons_of_neg rest (by simp [hq])]
      exact find?_eq_of_nodup_fst rest id c hmem2 hnd.2

theorem dictGet_eq_of_mem (procs : List (Int × String)) (id : Int) (c : String)
    (hmem : (id, c) ∈ procs) (hnd : (procs.map Prod.fst).Nodup) :
    dictGet procs id = c := by
  unfold dictGet
  rw [find?_eq_of_nodup_fst procs.reverse id c (List.mem_reverse.mpr hmem)
    (by rw [List.map_reverse]; exact List.nodup_reverse.mpr hnd)]

theorem pair_eq_of_nodup_fst : ∀ (l : List (Int × String)) (p q : Int × String),
    p ∈ l → q ∈ l → (l.map Prod.fst).Nodup → p.1 = q.1 → p = q
  | [], p, q, hp, _, _, _ => by cases hp
  | a :: rest, p, q, hp, hq, hnd, hfst => by
    rw [List.map_cons, List.nodup_cons] at hnd
    rcases List.mem_cons.mp hp with rfl | hp2
    · rcases List.mem_cons.mp hq with rfl | hq2
      · rfl
      · exfalso
        apply hnd.1
        rw [hfst]
        exact List.mem_map.mpr ⟨q, hq2, rfl⟩
    · rcases List.mem_cons.mp hq with rfl | hq2
      · exfalso
        apply hnd.1
        rw [← hfst]
        exact List.mem_map.mpr ⟨p, hp2, rfl⟩
      · exact pair_eq_of_nodup_fst rest p q hp2 hq2 hnd.2 hfst

theorem invertedIndexMem_eq_of_mem (tagger : String → List (String × String))
    (procs : List (Int × String)) (id : Int) (c : String)
    (hmem : (id, c) ∈ procs) (hnd : (procs.map Prod.fst).Nodup) (n : String) :
    invertedIndexMem tagger procs n id = (extract_nouns tagger c).contains n := by
  unfold invertedIndexMem
  cases hcont : (extract_nouns tagger c).contains n with
  | true =>
    apply List.any_eq_true.mpr
    refine ⟨(id, c), hmem, ?_⟩
    simp only [beq_self_eq_true, Bool.true_and]
    exact hcont
  | false =>
    rw [List.any_eq_false]
    intro p hp
    intro hcontra
    rw [Bool.and_eq_true] at hcontra
    have hfst : p.1 = id := by simpa using hcontra.1
    have hpe : p = (id, c) :=
      pair_eq_of_nodup_fst procs p (id, c) hp hmem hnd (by simpa using hfst)
    rw [hpe] at hcontra
    rw [hcont] at hcontra
    cases hcontra.2

/-! ## Concrete fixtures used by witnesses and counterexamples -/

/-- A possible `list(set(xs))` enumeration: first-occurrence representatives. -/
def sigmaDedup : List String → List String := fun xs => xs.dedup

/-- Another possible `list(set(xs))` enumeration: reversed order (a hash set
iterates in hash order, which need not be input order). -/
def sigmaRev : List String → List String := fun xs => (xs.dedup).reverse

/-- A concrete deterministic embedding provider (constant). -/
def encZero : String → Vec := fun _ => [0]

/-- A batched encoder that always raises. -/
def encFail : List String → Except Unit (List Vec) := fun _ => .error ()

/-- The engine state the model computes for
`insert(["A"])` on a fresh engine of dimension 1. -/
def engineAfterFirstInsert : VectorSearchEngine :=
  { dimension := 1, index := some { dimension := 1, vectors := [[0]] },
    documents := ["A"], urls := [], document_ids := [0] }

theorem sigmaDedup_setEnum : SetEnum sigmaDedup := by
  intro xs
  exact ⟨List.nodup_dedup xs, fun a => List.mem_dedup⟩

/-! ## Claim theorems -/

/-- C1: the claimed invariant — after every public operation the documents,
document_ids and urls lists all have length equal to the number of vectors in
the index — is violated by the code: `insert` extends `documents` and
`document_ids` but never `urls`. After inserting one document into a fresh
engine, documents/ids/index all have one entry while urls is empty, and the
subsequent `get` raises `IndexError` on `self.urls[doc_index]` instead of
returning a result. -/
theorem C1_insert_never_extends_urls :
    VectorSearchEngine.insert sigmaDedup (pureEnc encZero) (freshEngine 1) ["A"] =
      .ok engineAfterFirstInsert ∧
    engineAfterFirstInsert.documents.length = 1 ∧
    engineAfterFirstInsert.document_ids.length = 1 ∧
    Option.map FaissIndexFlatL2.ntotal engineAfterFirstInsert.index = some 1 ∧
    engineAfterFirstInsert.urls.length = 0 ∧
    VectorSearchEngine.get encZero engineAfterFirstInsert "A" 1 = .error () := by
  exact ⟨rfl, rfl, rfl, rfl, rfl, rfl⟩

/-- C3: `insert` never shrinks the registry, and no text appended by a call
was already present in `documents` before the call (first call dedupes the
batch against itself via a set; later calls filter against the full text
list). -/
theorem C3_insert_monotone_no_existing_duplicate (σ : List String → List String)
    (enc : String → Vec) (e : VectorSearchEngine) (nd : List String)
    (e' : VectorSearchEngine)
    (h : VectorSearchEngine.insert σ (pureEnc enc) e nd = .ok e') :
    e.documents.length ≤ e'.documents.length ∧
    ∀ t ∈ e'.documents.drop e.documents.length, t ∉ e.documents := by
  by_cases hf : (insertFilteredDocs σ e nd).isEmpty = true
  · rw [insert_pureEnc_empty σ enc e nd hf] at h
    injection h with h
    subst h
    refine ⟨le_refl _, ?_⟩
    intro t ht
    rw [List.drop_length] at ht
    cases ht
  · rw [insert_pureEnc_push σ enc e nd (by simpa using hf)] at h
    injection h with h
    subst h
    constructor
    · simp
    · intro t ht
      simp only [List.drop_left] at ht
      unfold insertFilteredDocs at ht
      by_cases hde : e.documents.isEmpty = true
      · rw [List.isEmpty_iff.mp hde]
        simp
      · rw [if_neg hde] at ht
        have := List.of_mem_filter ht
        simp at this
        exact this

/-- The engine state the model computes for a subsequent `insert(["B"])` on
`engineAfterFirstInsert`. -/
def engineAfterSecondInsert : VectorSearchEngine :=
  { dimension := 1, index := some { dimension := 1, vectors := [[0], [0]] },
    documents := ["A", "B"], urls := [], document_ids := [0, 1] }

/-- C3 witness: inserting `["B"]` into the state holding `["A"]` keeps the
registry length non-decreasing. -/
theorem C3_witness :
    engineAfterFirstInsert.documents.length ≤
      engineAfterSecondInsert.documents.length :=
  (C3_insert_monotone_no_existing_duplicate sigmaDedup encZero engineAfterFirstInsert
    ["B"] engineAfterSecondInsert (by rfl)).1

/-- C5: `get` on an engine whose index is unset, or set but holding zero
vectors, returns the empty list without raising. -/
theorem C5_get_empty_index (enc : String → Vec) (e : VectorSearchEngine)
    (q : String) (k : Nat)
    (h : e.index = none ∨ ∃ idx, e.index = some idx ∧ idx.ntotal = 0) :
    VectorSearchEngine.get enc e q k = .ok [] := by
  rcases h with h | ⟨idx, h, hz⟩
  · simp [VectorSearchEngine.get, h]
  · simp [VectorSearchEngine.get, h, hz]

/-- C5 witness: a fresh engine answers any query with the empty list. -/
theorem C5_witness :
    VectorSearchEngine.get encZero (freshEngine 3) "anything" 5 = .ok [] :=
  C5_get_empty_index encZero (freshEngine 3) "anything" 5 (Or.inl rfl)

/-- C6: `insert` is atomic per call — when the encoding step raises, the
exception escapes before any mutation, so the index, documents and
document_ids are unchanged from the pre-call state (in the source,
`model.encode` precedes `index.add` and the registry extensions). -/
theorem C6_insert_atomic_on_encode_error (σ : List String → List String)
    (encB : List String → Except Unit (List Vec)) (e : VectorSearchEngine)
    (nd : List String) (s : VectorSearchEngine)
    (h : VectorSearchEngine.insert σ encB e nd = .error s) :
    s.index = e.index ∧ s.documents = e.documents ∧
    s.document_ids = e.document_ids := by
  have hs := insert_error_state σ encB e nd s h
  subst hs
  exact ⟨rfl, rfl, rfl⟩

/-- C6 witness: a failing encoder on a fresh engine leaves the state intact. -/
theorem C6_witness :
    (freshEngine 1).index = (freshEngine 1).index ∧
    (freshEngine 1).documents = (freshEngine 1).documents ∧
    (freshEngine 1).document_ids = (freshEngine 1).document_ids :=
  C6_insert_atomic_on_encode_error sigmaDedup encFail (freshEngine 1) ["A"]
    (freshEngine 1) rfl

theorem sigmaRev_setEnum : SetEnum sigmaRev := by
  intro xs
  refine ⟨List.nodup_reverse.mpr (List.nodup_dedup xs), fun a => ?_⟩
  rw [sigmaRev, List.mem_reverse]
  exact List.mem_dedup

/-- C2 counterexample: the first insertion passes the batch through
`list(set(new_documents))`, whose iteration order is unspecified hash order;
under the admissible enumeration `sigmaRev` (same members, no duplicates) the
surviving texts of `insert(["A", "B"])` on a fresh engine are appended as
`["B", "A"]` — not in input order as the claim states. -/
theorem C2_counterexample :
    VectorSearchEngine.insert sigmaRev (pureEnc encZero) (freshEngine 1) ["A", "B"] =
      .ok { dimension := 1, index := some { dimension := 1, vectors := [[0], [0]] },
            documents := ["B", "A"], urls := [], document_ids := [0, 1] } ∧
    sigmaRev ["A", "B"] = ["B", "A"] ∧
    (sigmaRev ["A", "B"]).Nodup ∧
    (["B", "A"] : List String) ≠ ["A", "B"] := by
  exact ⟨rfl, rfl, by decide, by decide⟩

/-- C2 (amended): the ids a call to `insert` assigns are contiguous starting
at `max(existing document_ids) + 1` (or 0 when there are none) and strictly
greater than every previously assigned id; the surviving texts are appended
in input order for non-first insertions, while the first insertion appends
them in the set's (arbitrary) iteration order with in-batch duplicates
collapsed. -/
theorem C2_amended_insert_ids (σ : List String → List String) (hσ : SetEnum σ)
    (enc : String → Vec) (e : VectorSearchEngine) (nd : List String)
    (e' : VectorSearchEngine)
    (h : VectorSearchEngine.insert σ (pureEnc enc) e nd = .ok e') :
    e'.document_ids = e.document_ids ++
      (List.range (e'.documents.length - e.documents.length)).map
        (fun (i : Nat) => startId e.document_ids + (i : Int)) ∧
    (∀ p ∈ e.document_ids, ∀ q ∈ e'.document_ids.drop e.document_ids.length, p < q) ∧
    (e.documents ≠ [] →
      e'.documents = e.documents ++ nd.filter (fun d => !(e.documents.contains d))) ∧
    (e.documents = [] → e'.documents.Nodup ∧ ∀ t, t ∈ e'.documents ↔ t ∈ nd) := by
  by_cases hf : (insertFilteredDocs σ e nd).isEmpty = true
  · rw [insert_pureEnc_empty σ enc e nd hf] at h
    injection h with h
    subst h
    have hfil : insertFilteredDocs σ e nd = [] := List.isEmpty_iff.mp hf
    refine ⟨by simp, ?_, ?_, ?_⟩
    · intro p hp q hq
      rw [List.drop_length] at hq
      cases hq
    · intro hne
      unfold insertFilteredDocs at hfil
      rw [if_neg (by simp [hne])] at hfil
      rw [hfil]
      simp
    · intro hemp
      unfold insertFilteredDocs at hfil
      rw [if_pos (by simp [hemp])] at hfil
      refine ⟨by rw [hemp]; exact List.nodup_nil, ?_⟩
      intro t
      rw [hemp]
      have hiff := (hσ nd).2 t
      rw [hfil] at hiff
      simp only [List.not_mem_nil, false_iff]
      intro ht
      exact (by simpa using hiff.mpr ht)
  · rw [insert_pureEnc_push σ enc e nd (by simpa using hf)] at h
    injection h with h
    subst h
    refine ⟨?_, ?_, ?_, ?_⟩
    · simp
    · intro p hp q hq
      simp only [List.drop_left] at hq
      rcases List.mem_map.mp hq with ⟨i, hi, rfl⟩
      have hne : e.document_ids ≠ [] := by
        intro hnil
        rw [hnil] at hp
        cases hp
      have hmax : ∃ m, e.document_ids.max? = some m := by
        cases hm : e.document_ids.max? with
        | some m => exact ⟨m, rfl⟩
        | none =>
          cases hl : e.document_ids with
          | nil => exact absurd hl hne
          | cons b l =>
            rw [hl] at hm
            cases hm
      rcases hmax with ⟨m, hm⟩
      have hpm : p ≤ m := le_of_mem_max? e.document_ids m hm p hp
      have hstart : startId e.document_ids = m + 1 := by
        unfold startId
        rw [hm]
      have hgoal : p < startId e.document_ids + (i : Int) := by omega
      simpa using hgoal
    · intro hne
      unfold insertFilteredDocs
      rw [if_neg (by simp [hne])]
    · intro hemp
      have hfil : insertFilteredDocs σ e nd = σ nd := by
        unfold insertFilteredDocs
        rw [if_pos (by simp [hemp])]
      simp only [hemp, hfil, List.nil_append]
      exact ⟨(hσ nd).1, (hσ nd).2⟩

/-- C2 witness: the amended id-assignment law evaluated for `insert(["A"])`
on a fresh engine. -/
theorem C2_witness :
    engineAfterFirstInsert.document_ids = (freshEngine 1).document_ids ++
      (List.range (engineAfterFirstInsert.documents.length -
        (freshEngine 1).documents.length)).map
        (fun (i : Nat) => startId (freshEngine 1).document_ids + (i : Int)) :=
  (C2_amended_insert_ids sigmaDedup sigmaDedup_setEnum encZero (freshEngine 1)
    ["A"] engineAfterFirstInsert (by rfl)).1

/-- C4 counterexample: the record whose content is the non-empty string `" "`
(a space) is dropped by the loader, although the claim says every record with
a non-empty unseen string content is retained — the code additionally
requires `content.strip()` to be truthy. -/
theorem C4_counterexample :
    VectorSearchEngine.load_and_filter_documents
      [{ content := some " ", doc_id := 1, url := none }] = ([], [], []) ∧
    (" " : String) ≠ "" := by
  exact ⟨rfl, by decide⟩

/-- C4 (amended): the loader retains, for each record whose content is a
string that is non-empty and contains a non-whitespace character (Python
truthy `content` and truthy `content.strip()`) and was not seen earlier in
the file, the triple (content, doc_id, url-or-""), returned as three parallel
lists in input order; each retained triple carries the doc_id and url of the
FIRST record in the file bearing that content (the one `find?` locates), and
the text list has no duplicates. -/
theorem C4_amended_loader_contract (data : List CorpusRecord) :
    (VectorSearchEngine.load_and_filter_documents data).1.Nodup ∧
    (VectorSearchEngine.load_and_filter_documents data).2.1.length =
      (VectorSearchEngine.load_and_filter_documents data).1.length ∧
    (VectorSearchEngine.load_and_filter_documents data).2.2.length =
      (VectorSearchEngine.load_and_filter_documents data).1.length ∧
    (VectorSearchEngine.load_and_filter_documents data).1.Sublist
      (data.filterMap (fun it => it.content)) ∧
    (∀ c, c ∈ (VectorSearchEngine.load_and_filter_documents data).1 ↔
      ∃ it ∈ data, it.content = some c ∧ (!c.isEmpty && pyStripTruthy c) = true) ∧
    (∀ x ∈ (VectorSearchEngine.load_and_filter_documents data).1.zip
        ((VectorSearchEngine.load_and_filter_documents data).2.1.zip
          (VectorSearchEngine.load_and_filter_documents data).2.2),
      ∃ it, data.find? (fun r => r.content == some x.1) = some it ∧
        it.content = some x.1 ∧ it.doc_id = x.2.1 ∧
        x.2.2 = it.url.getD "") := by
  unfold VectorSearchEngine.load_and_filter_documents
  refine ⟨(loadFilterAux_nodup data []).1, (loadFilterAux_lengths data []).1,
    (loadFilterAux_lengths data []).2, loadFilterAux_sublist data [], ?_, ?_⟩
  · intro c
    rw [loadFilterAux_mem data [] c]
    simp
  · exact loadFilterAux_find? data []

/-- A corpus with duplicate contents, the example of the claim. -/
def dataABB : List CorpusRecord :=
  [{ content := some "A", doc_id := 1, url := none },
   { content := some "A", doc_id := 2, url := none },
   { content := some "B", doc_id := 3, url := none }]

/-- On the duplicate-content corpus A(doc 1)/A(doc 2)/B(doc 3) the loader
keeps exactly the two texts with the ids and urls of their first-occurrence
records: ids [1, 3], not [2, 3]. -/
theorem load_dataABB_first_occurrence :
    VectorSearchEngine.load_and_filter_documents dataABB =
      (["A", "B"], [1, 3], ["", ""]) := by
  rfl

/-- C4 witness: the amended loader contract evaluated on the duplicate-content
example corpus. -/
theorem C4_witness :
    (VectorSearchEngine.load_and_filter_documents dataABB).1.Nodup :=
  (C4_amended_loader_contract dataABB).1

/-- A filesystem holding a well-formed JSON file whose root is not a list. -/
def fsNonList : String → Option JsonFile :=
  fun p => if p == "corpus_text_only.json" then some (.parsed .nonList) else none

/-- C9 counterexample: the noun-search constructor also propagates a
`TypeError` — not only `FileNotFoundError` — when the file exists but its
JSON root is not a list, contradicting the claim that file-not-found is the
only exception that reaches the caller. -/
theorem C9_counterexample :
    NounSearchEngine.create fsNonList "corpus_text_only.json" =
      .error .typeError ∧
    PyError.typeError ≠ PyError.fileNotFoundError := by
  exact ⟨rfl, by decide⟩

/-- C9 (amended): the noun-search constructor raises `FileNotFoundError`
exactly when the path does not exist, `JSONDecodeError` exactly when the
file exists but is malformed JSON, `TypeError` exactly when the file parses
to a non-list JSON root, and succeeds on an existing, well-formed,
list-rooted file. -/
theorem C9_amended_constructor_errors (fs : String → Option JsonFile)
    (path : String) :
    (NounSearchEngine.create fs path = .error .fileNotFoundError ↔
      fs path = none) ∧
    (NounSearchEngine.create fs path = .error .jsonDecodeError ↔
      fs path = some .malformed) ∧
    (NounSearchEngine.create fs path = .error .typeError ↔
      fs path = some (.parsed .nonList)) ∧
    (∀ data, fs path = some (.parsed (.arr data)) →
      NounSearchEngine.create fs path = .ok { procs := processedRecords data }) := by
  unfold NounSearchEngine.create
  cases hfs : fs path with
  | none => simp
  | some f =>
    cases f with
    | malformed => simp
    | parsed j =>
      cases j with
      | arr data => simp
      | nonList => simp

/-- C9 witness: the error characterization evaluated on the non-list
filesystem. -/
theorem C9_witness :
    NounSearchEngine.create fsNonList "corpus_text_only.json" =
      .error .typeError ↔
    fsNonList "corpus_text_only.json" = some (.parsed .nonList) :=
  (C9_amended_constructor_errors fsNonList "corpus_text_only.json").2.2.1

/-! ## Helper lemmas: the FAISS search shape -/

theorem faissScored_length (idx : FaissIndexFlatL2) (q : Vec) :
    (faissScored idx q).length = idx.vectors.length := by
  simp [faissScored]

theorem mem_faissScored (idx : FaissIndexFlatL2) (q : Vec) (p : Int × Int)
    (hp : p ∈ faissScored idx q) :
    ∃ i : Nat, i < idx.vectors.length ∧
      p = (sqL2 q (idx.vectors.getD i []), (i : Int)) := by
  rcases List.mem_map.mp hp with ⟨i, hi, rfl⟩
  exact ⟨i, List.mem_range.mp hi, rfl⟩

theorem faissScored_mem (idx : FaissIndexFlatL2) (q : Vec) (i : Nat)
    (hi : i < idx.vectors.length) :
    (sqL2 q (idx.vectors.getD i []), (i : Int)) ∈ faissScored idx q := by
  exact List.mem_map.mpr ⟨i, List.mem_range.mpr hi, rfl⟩

theorem faissSearch_of_ntotal_le (idx : FaissIndexFlatL2) (q : Vec) (k : Nat)
    (hk : idx.vectors.length ≤ k) :
    idx.search q k = insSort distPairLe (faissScored idx q) ++
      List.replicate (k - idx.vectors.length) (faissSentinel, -1) := by
  have hslen : (insSort distPairLe (faissScored idx q)).length = idx.vectors.length := by
    rw [(insSort_perm distPairLe (faissScored idx q)).length_eq, faissScored_length]
  show (insSort distPairLe (faissScored idx q)).take k ++
      List.replicate (k - ((insSort distPairLe (faissScored idx q)).take k).length)
        (faissSentinel, -1) =
    insSort distPairLe (faissScored idx q) ++
      List.replicate (k - idx.vectors.length) (faissSentinel, -1)
  rw [List.take_of_length_le (by omega)]
  rw [hslen]

/-- C10: when `get` is called with `k` greater than the number of stored
vectors, the index pads missing neighbour slots with label `-1` and a
sentinel distance; the guard `doc_index < len(self.documents)` accepts `-1`,
and Python negative indexing resolves it to the last registry entry — so the
returned list still has `k` entries, the trailing ones spurious copies of
the last stored document, instead of simply fewer results. -/
theorem C10_overfetch_pads_with_last_document (enc : String → Vec)
    (e : VectorSearchEngine) (idx : FaissIndexFlatL2) (q : String) (k : Nat)
    (hidx : e.index = some idx)
    (hn : idx.vectors.length = e.documents.length)
    (hids : e.document_ids.length = e.documents.length)
    (hurls : e.urls.length = e.documents.length)
    (hne : e.documents ≠ [])
    (hk : e.documents.length < k) :
    (VectorSearchEngine.get enc e q k).map List.length = .ok k ∧
    (VectorSearchEngine.get enc e q k).map (List.drop e.documents.length) =
      .ok (List.replicate (k - e.documents.length)
        (resultAt e faissSentinel (e.documents.length - 1))) := by
  have hlen : 0 < e.documents.length := List.length_pos.mpr hne
  have hnz : ¬ (idx.ntotal = 0) := by
    unfold FaissIndexFlatL2.ntotal
    omega
  have hget : VectorSearchEngine.get enc e q k = getLoop e (idx.search (enc q) k) := by
    simp only [VectorSearchEngine.get, hidx]
    rw [if_neg hnz]
  have hsearch := faissSearch_of_ntotal_le idx (enc q) k (by omega)
  have hgood : ∀ p ∈ idx.search (enc q) k, GoodPair e p := by
    intro p hp
    rw [hsearch, List.mem_append] at hp
    rcases hp with hp | hp
    · have hpm : p ∈ faissScored idx (enc q) :=
        (insSort_perm distPairLe (faissScored idx (enc q))).mem_iff.mp hp
      rcases mem_faissScored idx (enc q) p hpm with ⟨i, hi, rfl⟩
      left
      refine ⟨by omega, ?_, ?_, ?_⟩ <;>
        simp only [Int.toNat_ofNat] <;> omega
    · have hpad := List.eq_of_mem_replicate hp
      subst hpad
      right
      exact ⟨rfl, hne, hids, hurls⟩
  have hloop := getLoop_ok_of_good e (idx.search (enc q) k) hgood
  have hslen : (insSort distPairLe (faissScored idx (enc q))).length =
      e.documents.length := by
    rw [(insSort_perm distPairLe (faissScored idx (enc q))).length_eq,
      faissScored_length, hn]
  rw [hget, hloop, hsearch]
  constructor
  · simp only [Except.map, List.map_append, List.length_append, List.length_map,
      List.length_replicate, hslen]
    congr 1
    omega
  · simp only [Except.map, List.map_append]
    have hmlen : ((insSort distPairLe (faissScored idx (enc q))).map
        (fun p => resultAt e p.1 (pairPos e p))).length = e.documents.length := by
      rw [List.length_map, hslen]
    have hdrop : ∀ (a b : List SearchResult), a.length = e.documents.length →
        (a ++ b).drop e.documents.length = b := by
      intro a b hab
      rw [← hab, List.drop_left]
    rw [hdrop _ _ hmlen, List.map_replicate]
    have hcount : k - idx.vectors.length = k - e.documents.length := by omega
    rw [hcount]
    rfl

/-- The engine the model computes for `build_from_json` over a single-record
corpus (content "A", doc_id 1, no url). -/
def engineOneDoc : VectorSearchEngine :=
  { dimension := 1, index := some { dimension := 1, vectors := [[0]] },
    documents := ["A"], urls := [""], document_ids := [1] }

/-- C10 witness: over-fetching (`k = 3`) from the one-document engine returns
three entries, the last two copies of the single stored document. -/
theorem C10_witness :
    (VectorSearchEngine.get encZero engineOneDoc "A" 3).map List.length = .ok 3 :=
  (C10_overfetch_pads_with_last_document encZero engineOneDoc
    { dimension := 1, vectors := [[0]] } "A" 3 rfl rfl rfl rfl (by decide)
    (by decide)).1

/-- The text and score of the first returned result, when `get` succeeded
with a nonempty result list. -/
def topTextScore (r : Except Unit (List SearchResult)) : Option (String × Int) :=
  match r with
  | .ok (r0 :: _) => some (r0.text, r0.score)
  | _ => none

/-- C7: round-trip — with a deterministic embedding provider whose stored
embeddings do not collide with the embedding of `t`, building the index over
a corpus that retains `t` and querying `get` with the identical string `t`
returns `t` as the top-1 result with distance exactly 0 (exact
squared-Euclidean search of the query vector against itself). -/
theorem C7_roundtrip_top1 (enc : String → Vec) (e : VectorSearchEngine)
    (data : List CorpusRecord) (t : String) (k : Nat) (hk : 1 ≤ k)
    (ht : t ∈ (VectorSearchEngine.load_and_filter_documents data).1)
    (hdim : ∀ u ∈ (VectorSearchEngine.load_and_filter_documents data).1,
      (enc u).length = (enc t).length)
    (hinj : ∀ u ∈ (VectorSearchEngine.load_and_filter_documents data).1,
      enc u = enc t → u = t) :
    topTextScore (VectorSearchEngine.get enc
      (VectorSearchEngine.build_from_json enc e data) t k) = some (t, 0) := by
  have hne : (VectorSearchEngine.load_and_filter_documents data).1 ≠ [] :=
    List.ne_nil_of_mem ht
  have hEeq := build_from_json_eq enc e data hne
  set D := (VectorSearchEngine.load_and_filter_documents data).1 with hD
  set I := (VectorSearchEngine.load_and_filter_documents data).2.1 with hI
  set U := (VectorSearchEngine.load_and_filter_documents data).2.2 with hU
  set E := VectorSearchEngine.build_from_json enc e data with hEdef
  have hIlen : I.length = D.length := (loadFilterAux_lengths data []).1
  have hUlen : U.length = D.length := (loadFilterAux_lengths data []).2
  have hlen : 0 < D.length := List.length_pos.mpr hne
  have hEdocs : E.documents = D := by rw [hEeq]
  have hEids : E.document_ids = I := by rw [hEeq]
  have hEurls : E.urls = U := by rw [hEeq]
  have hEidx : E.index = some (FaissIndexFlatL2.mk e.dimension (D.map enc)) := by
    rw [hEeq]
  have hvlen : (FaissIndexFlatL2.mk e.dimension (D.map enc)).vectors.length =
      D.length := by simp
  have hnz : ¬ ((FaissIndexFlatL2.mk e.dimension (D.map enc)).ntotal = 0) := by
    unfold FaissIndexFlatL2.ntotal
    rw [hvlen]
    omega
  have hget : VectorSearchEngine.get enc E t k =
      getLoop E ((FaissIndexFlatL2.mk e.dimension (D.map enc)).search (enc t) k) := by
    simp only [VectorSearchEngine.get, hEidx]
    rw [if_neg hnz]
  obtain ⟨⟨j, hj⟩, hjt⟩ := List.mem_iff_get.mp ht
  have hvGetD : ∀ i, i < D.length → (D.map enc).getD i [] = enc (D.getD i "") := by
    intro i hi
    rw [List.getD_eq_getElem _ _ (by simpa using hi), List.getD_eq_getElem _ _ hi]
    exact List.getElem_map enc
  have hDj : D.getD j "" = t := by
    rw [List.getD_eq_getElem _ _ hj]
    simpa [List.get_eq_getElem] using hjt
  have htpair : ((0 : Int), (j : Int)) ∈
      faissScored (FaissIndexFlatL2.mk e.dimension (D.map enc)) (enc t) := by
    have hmem := faissScored_mem (FaissIndexFlatL2.mk e.dimension (D.map enc))
      (enc t) j (by simpa using hj)
    rw [show (FaissIndexFlatL2.mk e.dimension (D.map enc)).vectors = D.map enc
      from rfl] at hmem
    rw [hvGetD j hj, hDj, sqL2_self] at hmem
    exact hmem
  set S := insSort distPairLe
    (faissScored (FaissIndexFlatL2.mk e.dimension (D.map enc)) (enc t)) with hS
  have hSperm : S.Perm (faissScored (FaissIndexFlatL2.mk e.dimension (D.map enc))
      (enc t)) := insSort_perm distPairLe _
  have hSsorted : SortedBy distPairLe S :=
    pairwise_insSort distPairLe distPairLe_total distPairLe_trans _
  have hSlen : S.length = D.length := by
    rw [hSperm.length_eq, faissScored_length, hvlen]
  have hSne : S ≠ [] := by
    intro hnil
    rw [hnil] at hSlen
    simp at hSlen
    omega
  obtain ⟨h0, tl, hScases⟩ := List.exists_cons_of_ne_nil hSne
  have hh0mem : h0 ∈ faissScored (FaissIndexFlatL2.mk e.dimension (D.map enc))
      (enc t) := by
    apply hSperm.mem_iff.mp
    rw [hScases]
    exact List.mem_cons_self _ _
  rcases mem_faissScored _ _ h0 hh0mem with ⟨i0, hi0, h0eq⟩
  have hi0' : i0 < D.length := by
    rw [hvlen] at hi0
    exact hi0
  have hd0 : 0 ≤ h0.1 := by
    rw [h0eq]
    exact sqL2_nonneg _ _
  have htpairS : ((0 : Int), (j : Int)) ∈ S := hSperm.mem_iff.mpr htpair
  have hh0dist : h0.1 = 0 := by
    rw [hScases] at htpairS
    rcases List.mem_cons.mp htpairS with heq | hmem2
    · rw [← heq]
    · have hps := hSsorted
      rw [hScases] at hps
      have hp := (List.pairwise_cons.mp hps).1 _ hmem2
      simp only [distPairLe, decide_eq_true_eq] at hp
      rcases hp with hp | hp
      · omega
      · exact hp.1
  have hvec0 : sqL2 (enc t) ((D.map enc).getD i0 []) = 0 := by
    have := h0eq ▸ hh0dist
    exact this
  have hveq : enc (D.getD i0 "") = enc t := by
    rw [hvGetD i0 hi0'] at hvec0
    have hmemD : D.getD i0 "" ∈ D := by
      rw [List.getD_eq_getElem _ _ hi0']
      exact List.getElem_mem hi0'
    have hlenEq : (enc t).length = (enc (D.getD i0 "")).length :=
      (hdim _ hmemD).symm
    exact (sqL2_eq_zero _ _ hlenEq hvec0).symm
  have hmemD : D.getD i0 "" ∈ D := by
    rw [List.getD_eq_getElem _ _ hi0']
    exact List.getElem_mem hi0'
  have hdocs_i0 : D.getD i0 "" = t := hinj _ hmemD hveq
  obtain ⟨k1, rfl⟩ : ∃ k1, k = k1 + 1 := ⟨k - 1, by omega⟩
  have hsearch : (FaissIndexFlatL2.mk e.dimension (D.map enc)).search (enc t)
      (k1 + 1) =
      h0 :: (tl.take k1 ++ List.replicate
        ((k1 + 1) - (h0 :: tl.take k1).length) (faissSentinel, -1)) := by
    show S.take (k1 + 1) ++
        List.replicate ((k1 + 1) - (S.take (k1 + 1)).length) (faissSentinel, -1) = _
    rw [hScases, List.take_succ_cons]
    rfl
  have hgood : ∀ p ∈ (FaissIndexFlatL2.mk e.dimension (D.map enc)).search (enc t)
      (k1 + 1), GoodPair E p := by
    intro p hp
    rw [hsearch] at hp
    have hscored_good : ∀ q ∈ faissScored (FaissIndexFlatL2.mk e.dimension
        (D.map enc)) (enc t), GoodPair E q := by
      intro q hq
      rcases mem_faissScored _ _ q hq with ⟨i, hi, rfl⟩
      rw [hvlen] at hi
      left
      rw [hEdocs, hEids, hEurls]
      refine ⟨by omega, ?_, ?_, ?_⟩ <;> simp only [Int.toNat_ofNat] <;> omega
    rcases List.mem_cons.mp hp with rfl | hp2
    · exact hscored_good _ hh0mem
    · rcases List.mem_append.mp hp2 with hp3 | hp3
      · have hptl : p ∈ tl := List.mem_of_mem_take hp3
        have hpS : p ∈ S := by
          rw [hScases]
          exact List.mem_cons_of_mem _ hptl
        exact hscored_good _ (hSperm.mem_iff.mp hpS)
      · have hpad := List.eq_of_mem_replicate hp3
        subst hpad
        right
        rw [hEdocs, hEids, hEurls]
        exact ⟨rfl, hne, hIlen, hUlen⟩
  have hloop := getLoop_ok_of_good E _ hgood
  rw [hget, hloop, hsearch]
  simp only [List.map_cons]
  show some ((resultAt E h0.1 (pairPos E h0)).text,
    (resultAt E h0.1 (pairPos E h0)).score) = some (t, 0)
  have hpos : pairPos E h0 = i0 := by
    rw [h0eq]
    unfold pairPos
    rw [if_neg (by omega)]
    simp
  rw [hpos, hh0dist]
  have htext : (resultAt E 0 i0).text = t := by
    simp only [resultAt]
    rw [hEdocs]
    exact hdocs_i0
  have hscore : (resultAt E 0 i0).score = 0 := rfl
  rw [htext, hscore]

/-- A one-record corpus retaining the single text "A". -/
def dataA : List CorpusRecord := [{ content := some "A", doc_id := 1, url := none }]

/-- C7 witness: building over the one-record corpus and querying the stored
text returns it as top-1 with distance 0. -/
theorem C7_witness :
    topTextScore (VectorSearchEngine.get encZero
      (VectorSearchEngine.build_from_json encZero (freshEngine 1) dataA) "A" 1) =
      some ("A", 0) :=
  C7_roundtrip_top1 encZero (freshEngine 1) dataA "A" 1 (by decide) (by decide)
    (by decide) (by decide)

/-- C8: with the part-of-speech tagger opaque, every document returned by the
noun-overlap `search` has a positive score equal to the number of query nouns
appearing in that document's noun set, the results are ordered by descending
score and truncated to `top_k`; in particular a document sharing no noun with
the query never appears in the returned list. -/
theorem C8_noun_search_scoring (tagger : String → List (String × String))
    (π : List (Int × Nat) → List (Int × Nat))
    (hπ : ∀ l, (π l).Perm l)
    (eng : NounSearchEngine) (query : String) (top_k : Nat)
    (hids : (eng.procs.map Prod.fst).Nodup) :
    (NounSearchEngine.search tagger π eng query top_k).length ≤ top_k ∧
    (∀ r ∈ NounSearchEngine.search tagger π eng query top_k,
      0 < r.score ∧
      r.score = ((extract_nouns tagger query).filter
        (fun n => (extract_nouns tagger (dictGet eng.procs r.id)).contains n)).length) ∧
    List.Pairwise (fun a b : NounResult => b.score ≤ a.score)
      (NounSearchEngine.search tagger π eng query top_k) := by
  unfold NounSearchEngine.search
  cases hq : (extract_nouns tagger query).isEmpty with
  | true => simp
  | false =>
    simp only [Bool.false_eq_true, if_false]
    have hperm : (insSort scoreGe (π (nounDocScores tagger eng
        (extract_nouns tagger query)))).Perm
        (nounDocScores tagger eng (extract_nouns tagger query)) :=
      (insSort_perm scoreGe _).trans (hπ _)
    refine ⟨?_, ?_, ?_⟩
    · rw [List.length_map, List.length_take]
      exact min_le_left _ _
    · intro r hr
      rcases List.mem_map.mp hr with ⟨p, hp, rfl⟩
      have hpds : p ∈ nounDocScores tagger eng (extract_nouns tagger query) :=
        hperm.mem_iff.mp (List.mem_of_mem_take hp)
      unfold nounDocScores at hpds
      rcases List.mem_filter.mp hpds with ⟨hpmap, hppos⟩
      rcases List.mem_map.mp hpmap with ⟨id, hid, rfl⟩
      have hpos : 0 < ((extract_nouns tagger query).filter
          (fun n => invertedIndexMem tagger eng.procs n id)).length := by
        simpa using hppos
      obtain ⟨c, hc⟩ : ∃ c, (id, c) ∈ eng.procs := by
        have hidm := List.mem_dedup.mp hid
        rcases List.mem_map.mp hidm with ⟨pr, hpr, rfl⟩
        exact ⟨pr.2, by simpa using hpr⟩
      have hdict : dictGet eng.procs id = c := dictGet_eq_of_mem eng.procs id c hc hids
      refine ⟨hpos, ?_⟩
      show ((extract_nouns tagger query).filter
          (fun n => invertedIndexMem tagger eng.procs n id)).length =
        ((extract_nouns tagger query).filter
          (fun n => (extract_nouns tagger (dictGet eng.procs id)).contains n)).length
      congr 1
      apply List.filter_congr
      intro n hn
      rw [invertedIndexMem_eq_of_mem tagger eng.procs id c hc hids n, hdict]
    · have hsorted : SortedBy scoreGe (insSort scoreGe (π (nounDocScores tagger eng
          (extract_nouns tagger query)))) :=
        pairwise_insSort scoreGe scoreGe_total scoreGe_trans _
      have htake : SortedBy scoreGe ((insSort scoreGe (π (nounDocScores tagger eng
          (extract_nouns tagger query)))).take top_k) :=
        hsorted.sublist (List.take_sublist top_k _)
      rw [List.pairwise_map]
      apply htake.imp
      intro a b hab
      simpa [scoreGe] using hab

/-- A concrete opaque tagger for the witness corpus. -/
def taggerToy : String → List (String × String) :=
  fun s =>
    if s = "the dog ran" then [("the", "DT"), ("dog", "NN"), ("ran", "VBD")]
    else if s = "A dog barked" then [("A", "DT"), ("dog", "NN"), ("barked", "VBD")]
    else []

/-- A one-document noun-search engine state. -/
def nounEngToy : NounSearchEngine := { procs := [(1, "A dog barked")] }

/-- C8 witness: the scoring law evaluated on the toy engine and query. -/
theorem C8_witness :
    (NounSearchEngine.search taggerToy (fun l => l) nounEngToy "the dog ran" 5).length
      ≤ 5 :=
  (C8_noun_search_scoring taggerToy (fun l => l) (fun l => List.Perm.refl l)
    nounEngToy "the dog ran" 5 (by decide)).1
